import Mathlib

set_option autoImplicit false

/-!
Shallow embedding of the answer-resolution and API-automation pipeline of
`hdu_memorize_words` (src/app/question_processor.py, src/app/ai_client.py,
src/app/hdu_api_client.py, src/app/utils.py), with theorems settling the
frozen claims about it.

Python strings are modelled as Lean `String`s; the string routines the code
relies on (`str.strip`, `re.sub(r"\s+", ...)`, `re.split(r"\s*[|｜]\s*", ...)`,
`str.upper`, substring tests, `"sep".join`) are translated below, working on
`String.data` character lists.  Whitespace and case conversion are modelled
over the ASCII range (Python's `re` also treats some non-ASCII characters as
whitespace / word characters; no claim depends on those).
-/

namespace HduWords

/-! ### Python string primitives -/

/-- The whitespace characters recognised by Python's `str.strip()` and by
`\s` in the `re` patterns used by the code (ASCII range). -/
def isPySpace (c : Char) : Bool :=
  c == ' ' || c == '\t' || c == '\n' || c == '\r' || c == '\x0b' || c == '\x0c'

/-- `str.lstrip()` on a character list. -/
def lstripL (l : List Char) : List Char :=
  l.dropWhile isPySpace

/-- `str.rstrip()` on a character list. -/
def rstripL (l : List Char) : List Char :=
  (l.reverse.dropWhile isPySpace).reverse

/-- `str.strip()` on a character list. -/
def stripL (l : List Char) : List Char :=
  lstripL (rstripL l)

/-- `str.strip()`. -/
def pyStrip (s : String) : String :=
  String.mk (stripL s.data)

/-- `QuestionProcessor._normalize_text`: `re.sub(r"\s+", "", str(s)).strip()`,
i.e. delete every whitespace character (the trailing `.strip()` is then a
no-op, which the `stripL` wrapper keeps faithful to the source). -/
def normL (l : List Char) : List Char :=
  stripL (l.filter (fun c => !isPySpace c))

/-- `QuestionProcessor._normalize_text` on a `String`. -/
def normalizeText (s : String) : String :=
  String.mk (normL s.data)

/-- `str.upper()` (ASCII case mapping). -/
def pyUpper (s : String) : String :=
  String.mk (s.data.map Char.toUpper)

/-- Worker for `str.split(sep)`: scan left to right, cutting at each
(non-overlapping) occurrence of `sep`; `acc` holds the current piece in
reverse.  The fuel argument (always at least the input length plus one at
the call sites, with non-empty separators) makes the recursion structural. -/
def pySplitGo (sep : List Char) : Nat → List Char → List Char → List (List Char)
  | 0, acc, _ => [acc.reverse]
  | fuel + 1, acc, l =>
    if sep.isPrefixOf l then
      match l with
      | [] => [acc.reverse]
      | _ :: _ => acc.reverse :: pySplitGo sep fuel [] (l.drop sep.length)
    else
      match l with
      | [] => [acc.reverse]
      | c :: rest => pySplitGo sep fuel (c :: acc) rest

/-- Python `str.split(sep)` for a non-empty separator, on character lists:
non-overlapping occurrences cut the string, empty pieces are kept. -/
def pySplit (sep l : List Char) : List (List Char) :=
  pySplitGo sep (l.length + 1) [] l

/-- Python `str.split(sep)` on `String`s. -/
def pySplitStr (sep s : String) : List String :=
  (pySplit sep.data s.data).map String.mk

/-- Python's substring test `needle in s`.  A non-empty needle occurs in `s`
iff splitting `s` on it yields more than one piece. -/
def containsSub (needle s : String) : Bool :=
  if needle = "" then true else (pySplit needle.data s.data).length != 1

/-- `str.rstrip('.')`, applied to question titles and options in
`api_mode_answer`. -/
def rstripDots (s : String) : String :=
  String.mk ((s.data.reverse.dropWhile (fun c => c == '.')).reverse)

/-- `str.lstrip('?')`, applied to the URL fragment in
`HDUAuthService._exchange_ticket_for_token`. -/
def lstripQm (s : String) : String :=
  String.mk (s.data.dropWhile (fun c => c == '?'))

/-! ### Pipe-delimited meanings (`re.split(r"\s*[|｜]\s*", ...)`) -/

/-- The two meaning separators accepted by the knowledge base: ASCII `|` and
its full-width variant. -/
def isPipeChar (c : Char) : Bool :=
  c == '|' || c == '｜'

/-- Split a character list at every pipe character, keeping empty pieces
(the raw split underlying `re.split(r"\s*[|｜]\s*", ...)`).  The result is
always non-empty. -/
def splitOnPipe : List Char → List (List Char)
  | [] => [[]]
  | c :: rest =>
    if isPipeChar c then [] :: splitOnPipe rest
    else (c :: (splitOnPipe rest).headD []) :: (splitOnPipe rest).tail

/-- Strip the pipe-adjacent whitespace of every piece after the first:
each such piece follows a pipe (left strip) and, unless it is the last
piece, precedes one (right strip). -/
def pipeSplitRest : List (List Char) → List (List Char)
  | [] => []
  | [p] => [lstripL p]
  | p :: ps => stripL p :: pipeSplitRest ps

/-- Side-strip the raw pieces: the first piece touches a pipe only on its
right (unless it is the only piece), later pieces are handled by
`pipeSplitRest`. -/
def pipeSplitAll : List (List Char) → List (List Char)
  | [] => []
  | [p] => [p]
  | p :: ps => rstripL p :: pipeSplitRest ps

/-- `re.split(r"\s*[|｜]\s*", s)`: split at each pipe, with the `\s*` on both
sides of the pipe consumed by the (greedy, non-overlapping) matches — i.e.
every piece is whitespace-stripped on each side that touches a pipe. -/
def pipeSplitL (l : List Char) : List (List Char) :=
  pipeSplitAll (splitOnPipe l)

/-- `[p for p in re.split(r"\s*[|｜]\s*", s) if p.strip()]`: the meanings
carried by one stored string (blank pieces dropped, pieces kept unstripped
exactly as the source's `extend(p for p in parts if p.strip())`). -/
def meaningsL (l : List Char) : List (List Char) :=
  (pipeSplitL l).filter (fun p => decide (stripL p ≠ []))

/-- `"sep".join(pieces)` on character lists. -/
def joinSep (sep : List Char) : List (List Char) → List Char
  | [] => []
  | [p] => p
  | p :: ps => p ++ sep ++ joinSep sep ps

/-- The separator `" | "` used by `_persist_answer` when re-serialising an
entry. -/
def sepPipe : List Char := [' ', '|', ' ']

/-! ### The knowledge base (`questions.json`) -/

/-- A stored knowledge-base entry: the JSON file maps a question title to
either a single string or a list of strings (§6 of the spec; the code's
defensive branches for other JSON types are outside the claims). -/
inductive BankVal where
  | str (s : String)
  | list (l : List String)
  deriving DecidableEq

/-- Python truthiness of an entry, as tested by `if expected_answers:` in
`get_answer_index`. -/
def BankVal.truthy : BankVal → Bool
  | .str s => s != ""
  | .list l => !l.isEmpty

/-- The meanings of an entry, as parsed identically by `_persist_answer`
and `get_answer_index`: strings are pipe-split, lists concatenate the
pipe-splits of their items. -/
def meaningsOfVal : BankVal → List (List Char)
  | .str s => meaningsL s.data
  | .list l => (l.map (fun s => meaningsL s.data)).flatten

/-- The knowledge base: an insertion-ordered dictionary from question title
to stored entry. -/
abbrev Bank : Type := List (String × BankVal)

/-- `dict.get(question)`. -/
def bankGet (b : Bank) (k : String) : Option BankVal :=
  (List.find? (fun p => p.1 == k) b).map (fun p => p.2)

/-- `dict[question] = value`: replace in place, or append a new key. -/
def bankSet : Bank → String → BankVal → Bank
  | [], k, v => [(k, v)]
  | (k', v') :: rest, k, v =>
    if k' == k then (k, v) :: rest else (k', v') :: bankSet rest k v

/-- `QuestionProcessor._persist_answer`: `some newBank` when the updated
bank is written to disk (entry added or meaning appended), `none` when no
file write happens (blank answer, or the meaning is already present). -/
def persistAnswer (bank : Bank) (question chosen0 : String) : Option Bank :=
  let chosen := stripL chosen0.data
  if chosen = [] then none
  else
    match bankGet bank question with
    | none => some (bankSet bank question (.str (String.mk chosen)))
    | some existing =>
      let meanings := meaningsOfVal existing
      let seen := meanings.map normL
      if seen.contains (normL chosen) then none
      else
        some (bankSet bank question
          (.str (String.mk (joinSep sepPipe (meanings ++ [chosen])))))

/-- The knowledge-base file contents after `_persist_answer` runs: unchanged
when no write happens. -/
def persistBank (bank : Bank) (question chosen : String) : Bank :=
  (persistAnswer bank question chosen).getD bank

/-! ### Bank lookup and option matching (`get_answer_index`, step 1) -/

/-- Index of the first element satisfying `p` (Python
`for i, x in enumerate(l): if p(x): return i`). -/
def firstIdx {α : Type} (p : α → Bool) : List α → Option Nat
  | [] => none
  | a :: rest => if p a then some 0 else (firstIdx p rest).map (· + 1)

/-- The `seen_norm` / `unique_ordered_meanings` pass of `get_answer_index`:
normalise each meaning, keep the first occurrence of each non-empty
normalised form, in order. -/
def uniqueNormAux (seen : List (List Char)) : List (List Char) → List (List Char)
  | [] => []
  | m :: rest =>
    let n := normL m
    if n ≠ [] ∧ ¬ seen.contains n then n :: uniqueNormAux (n :: seen) rest
    else uniqueNormAux seen rest

/-- The nested matching loop of `get_answer_index`: meanings in priority
order, each scanned against the options in their order; the first hit wins. -/
def matchMeanings : List (List Char) → List String → Option Nat
  | [], _ => none
  | n :: rest, options =>
    match firstIdx (fun opt => normL opt.data == n) options with
    | some i => some i
    | none => matchMeanings rest options

/-- Step 1 of `get_answer_index`: the knowledge-bank answer for a question,
`none` when the entry is absent, falsy, or no meaning matches an option. -/
def bankAnswer (bank : Bank) (question : String) (options : List String) : Option Nat :=
  match bankGet bank question with
  | some v =>
    if v.truthy then matchMeanings (uniqueNormAux [] (meaningsOfVal v)) options
    else none
  | none => none

/-! ### The AI judge (`ai_choose_answer`) -/

/-- One attempt's outcome at the HTTP boundary: `raised` for any exception
out of `requests.post` / `resp.json()` (transport error or undecodable
body), `status code content` for a response with that status whose decoded
text content is `content` (the code falls back to `str(data)` when the JSON
lacks `choices[0].message.content`, so a string is always available). -/
inductive AiResp where
  | raised
  | status (code : Nat) (content : String)

/-- The answer letters, as searched by `re.search(r"([ABCD])", text)`. -/
def abcdChars : List Char := ['A', 'B', 'C', 'D']

/-- `{"A": 0, "B": 1, "C": 2, "D": 3}` lookup. -/
def letterIdx (c : Char) : Int :=
  if c = 'A' then 0 else if c = 'B' then 1 else if c = 'C' then 2 else 3

/-- A word character of `re`'s `\b` boundary (ASCII range). -/
def isWordChar (c : Char) : Bool :=
  c.isAlphanum || c == '_'

/-- A `\b` word boundary holds against a neighbouring position: either no
character is there, or the character there is not a word character. -/
def boundaryOk : Option Char → Bool
  | none => true
  | some c => !isWordChar c

/-- Leftmost match of `re.search(r"\b([1-4])\b", text)`: the first digit
1–4 whose neighbours (when present) are not word characters. -/
def findDigitAux (prev : Option Char) : List Char → Option Char
  | [] => none
  | c :: rest =>
    if (c == '1' || c == '2' || c == '3' || c == '4')
        && boundaryOk prev && boundaryOk rest.head?
    then some c
    else findDigitAux (some c) rest

/-- Rule 1 of the response parsing, `re.search(r"([ABCD])", text)`: the
first occurrence of one of the characters A–D in `text`, mapped through the
letter table; `-1` when absent. -/
def parseLetter (text : String) : Int :=
  match text.data.find? (fun c => abcdChars.contains c) with
  | some c => letterIdx c
  | none => -1

/-- Rule 2, `re.search(r"\b([1-4])\b", text)`: the first standalone digit
1–4 in `text`, mapped to 0–3 (`int(m2.group(1)) - 1`; `'1'` has code 49);
`-1` when absent. -/
def parseDigit (text : String) : Int :=
  match findDigitAux none text.data with
  | some d => (d.toNat : Int) - 49
  | none => -1

/-- Rule 3: the first option whose stripped text is non-empty and occurs as
a substring of `text`; `-1` when none does. -/
def parseOptionSub (text : String) (options : List String) : Int :=
  match firstIdx (fun opt => decide (pyStrip opt ≠ "") && containsSub (pyStrip opt) text) options with
  | some i => (i : Int)
  | none => -1

/-- The response-parsing block of `ai_choose_answer`: the content is
stripped and upper-cased, then rule 1 (letter), rule 2 (standalone digit),
rule 3 (option substring) are tried in order on that transformed text.
Returns `-1` when no rule applies. -/
def parseAiText (content : String) (options : List String) : Int :=
  let text := pyUpper (pyStrip content)
  let idx1 := parseLetter text
  let idx2 := if idx1 = -1 then parseDigit text else idx1
  if idx2 = -1 then parseOptionSub text options else idx2

/-- Observable outcome of one `ai_choose_answer` call: the returned index,
the number of attempts that ran, and the log of `time.sleep` backoffs (each
entry records one sleep's duration in seconds). -/
structure AiRun where
  idx : Int
  attemptsMade : Nat
  sleepLog : List ℚ
  deriving DecidableEq

/-- Bookkeeping of one failed attempt: it counts, and is followed by a
`time.sleep(0.5)` backoff exactly when it was not the last attempt
(`if attempt < total_attempts`). -/
def aiFail (total attempt : Nat) (rest : AiRun) : AiRun :=
  if attempt < total then ⟨rest.idx, rest.attemptsMade + 1, (1/2 : ℚ) :: rest.sleepLog⟩
  else ⟨rest.idx, rest.attemptsMade + 1, rest.sleepLog⟩

/-- The attempt loop of `ai_choose_answer`, recursing over the remaining
attempts.  `attempt` is the 1-based attempt counter, `total` the attempt
budget; an attempt succeeds only when its 200-status body parses to an
index in {0,1,2,3} (`if idx in (0, 1, 2, 3)` in the source). -/
def aiLoop (resps : Nat → AiResp) (options : List String) (total : Nat) :
    Nat → Nat → AiRun
  | _, 0 => ⟨-1, 0, []⟩
  | attempt, r + 1 =>
    match resps attempt with
    | .raised => aiFail total attempt (aiLoop resps options total (attempt + 1) r)
    | .status code content =>
      if code ≠ 200 then aiFail total attempt (aiLoop resps options total (attempt + 1) r)
      else
        if parseAiText content options = 0 ∨ parseAiText content options = 1 ∨
            parseAiText content options = 2 ∨ parseAiText content options = 3 then
          ⟨parseAiText content options, 1, []⟩
        else aiFail total attempt (aiLoop resps options total (attempt + 1) r)

/-- `cfg.get("retries", 3)` followed by the non-negativity clamp: absent
configuration defaults to 3, negative values are clamped to 0. -/
def retriesOf (cfg : Option Int) : Nat :=
  let r := cfg.getD 3
  (if r < 0 then 0 else r).toNat

/-- `ai_choose_answer`: when the judge is not enabled it returns `-1`
without any attempt; otherwise it runs `1 + retries` attempts.  The HTTP
transport is abstracted as `resps`, mapping the attempt number to that
attempt's outcome. -/
def aiChooseAnswer (enabled : Bool) (resps : Nat → AiResp) (cfgRetries : Option Int)
    (options : List String) : AiRun :=
  if ¬ enabled then ⟨-1, 0, []⟩
  else
    let total := 1 + retriesOf cfgRetries
    aiLoop resps options total 1 total

/-- An attempt outcome is retried by `ai_choose_answer`: an exception, a
non-200 status, or a body none of whose parse rules yields an index in
{0,1,2,3}. -/
def attemptFails (options : List String) : AiResp → Bool
  | .raised => true
  | .status code content =>
    code != 200 ||
      !(let idx := parseAiText content options
        decide (idx = 0 ∨ idx = 1 ∨ idx = 2 ∨ idx = 3))

/-! ### The answer resolver (`get_answer_index`) -/

/-- Result of one `get_answer_index` call: the returned index, the
knowledge-base file contents afterwards, and the records appended to the
failure log `error.txt` by `save_error` (question title with its options). -/
structure ResolveResult where
  idx : Int
  bank : Bank
  errors : List (String × List String)
  deriving DecidableEq

/-- `QuestionProcessor.get_answer_index`: knowledge-bank lookup first; on a
miss, the AI judge when enabled, persisting the chosen option's text; else
one failure-log record and `-1`.  (`aiEnabled` is the combined truthiness
of `self.ai_config and self.ai_config.get("enabled")`.) -/
def getAnswerIndex (bank : Bank) (aiEnabled : Bool) (resps : Nat → AiResp)
    (cfgRetries : Option Int) (question : String) (options : List String) : ResolveResult :=
  match bankAnswer bank question options with
  | some i => ⟨(i : Int), bank, []⟩
  | none =>
    if aiEnabled then
      let run := aiChooseAnswer true resps cfgRetries options
      if run.idx ≠ -1 then
        ⟨run.idx, persistBank bank question (options.getD run.idx.toNat ""), []⟩
      else ⟨-1, bank, [(question, options)]⟩
    else ⟨-1, bank, [(question, options)]⟩

/-! ### The ticket-for-token exchange (`HDUAuthService._exchange_ticket_for_token`) -/

/-- One hop of the redirect chain as observed by the client: the response
status, its `Location` header (`headers.get('Location', '')`, meaningful
on a 302), and the value of the session cookie jar's `X-Auth-Token` cookie
after this request (`none` when the jar has no such cookie). -/
structure HttpResp where
  status : Nat
  location : String
  cookieToken : Option String

/-- Outcome of the fragment-token extraction attempted on a 302 hop's
`Location`: a token was found and returned, no token was found (the loop
follows the redirect), or the `dict(...)` comprehension raised (a
`param.split('=')` piece with more than one `=`), which the enclosing
`try` turns into overall failure. -/
inductive FragResult where
  | found (tok : String)
  | noToken
  | err
  deriving DecidableEq

/-- `dict(param.split('=') for param in fragment.split('&') if '=' in param)`:
the key–value pairs in order; `none` when some kept piece splits into more
than two parts (Python raises `ValueError`). -/
def parseParams : List String → Option (List (String × String))
  | [] => some []
  | p :: rest =>
    if p.data.contains '=' then
      match pySplitStr "=" p with
      | [k, v] => (parseParams rest).map (fun l => (k, v) :: l)
      | _ => none
    else parseParams rest

/-- Python `dict` lookup over insertion pairs: the last binding of a key
wins. -/
def dictGet (l : List (String × String)) (k : String) : Option String :=
  (List.find? (fun p => p.1 == k) l.reverse).map (fun p => p.2)

/-- The fragment-token extraction of `_exchange_ticket_for_token`: when the
`Location` contains `token=` and a `#`, the text after the first `#` is
stripped of leading `?` and parsed as `&`-separated `key=value` pairs; a
non-empty value under the key exactly `token` is returned.  Any failed test
falls through to following the redirect. -/
def extractFragToken (location : String) : FragResult :=
  if containsSub "token=" location then
    if location.data.contains '#' then
      let fragment := (pySplitStr "#" location).getD 1 ""
      if containsSub "token=" fragment then
        match parseParams (pySplitStr "&" (lstripQm fragment)) with
        | none => .err
        | some params =>
          match dictGet params "token" with
          | some tok => if tok ≠ "" then .found tok else .noToken
          | none => .noToken
      else .noToken
    else .noToken
  else .noToken

/-- The manual redirect loop of `_exchange_ticket_for_token` over at most
`fuel` hops; `resps i` is the response the session receives at hop `i`.
On a 302 the fragment extraction is tried and, failing, the redirect is
followed; on any other status the cookie jar's `X-Auth-Token` is returned
if present and the loop breaks. -/
def exchangeLoop (resps : Nat → HttpResp) : Nat → Nat → Option String
  | _, 0 => none
  | i, fuel + 1 =>
    let r := resps i
    if r.status = 302 then
      match extractFragToken r.location with
      | .found tok => some tok
      | .noToken => exchangeLoop resps (i + 1) fuel
      | .err => none
    else r.cookieToken

/-- `_exchange_ticket_for_token`: the redirect loop with its budget of 10
hops (`max_redirects = 10`). -/
def exchangeTicketForToken (resps : Nat → HttpResp) : Option String :=
  exchangeLoop resps 0 10

/-! ### Score control and the API answering loop (`api_mode_answer`) -/

/-- The deliberate-miss budget of `api_mode_answer`:
`wrong_count = 100 - expected_score`, clamped into `[0, questionCount]`. -/
def wrongCountInt (expectedScore : Int) (questionCount : Nat) : Int :=
  let w : Int := 100 - expectedScore
  if w < 0 then 0
  else if w > (questionCount : Int) then (questionCount : Int)
  else w

/-- `random.sample(pool, k)` as selection without replacement: at each step
the oracle `r` picks one remaining element (index reduced modulo the pool
size), which is then removed from the pool.  The empty-pool case is
unreachable from `wrongIndices` because the budget is clamped to the
question count. -/
def sampleAux (r : Nat → Nat) : List Nat → Nat → Nat → List Nat
  | _, 0, _ => []
  | [], _ + 1, _ => []
  | a :: pool, k + 1, step =>
    let i := r step % (a :: pool).length
    (a :: pool).getD i 0 :: sampleAux r ((a :: pool).eraseIdx i) k (step + 1)

/-- `random.sample(range(len(questions)), wrong_count)` guarded by
`if wrong_count > 0`, as in `api_mode_answer`. -/
def wrongIndices (r : Nat → Nat) (expectedScore : Int) (questionCount : Nat) : List Nat :=
  let k := (wrongCountInt expectedScore questionCount).toNat
  if k > 0 then sampleAux r (List.range questionCount) k 0 else []

/-- `correct_answer_char`: `'A'` as the default when resolution failed,
otherwise `chr(idx + 65)`. -/
def correctChar (idx : Int) : Char :=
  if idx ≠ -1 then Char.ofNat (idx.toNat + 65) else 'A'

/-- `[chr(i + 65) for i in range(4) if chr(i + 65) != correct_answer_char]`. -/
def wrongOptionChars (c : Char) : List Char :=
  ((List.range 4).map (fun i => Char.ofNat (i + 65))).filter (fun ch => ch != c)

/-- The deliberate-miss injection: when the question was selected
(`idx in wrong_indices`) and the wrong-letter list is non-empty,
`random.choice` picks one of them (oracle index reduced modulo the list
length); otherwise the resolved letter stands. -/
def finalAnswerChar (isWrong : Bool) (missR : Nat) (c : Char) : Char :=
  if isWrong then
    let w := wrongOptionChars c
    if w.isEmpty then c else w.getD (missR % w.length) 'A'
  else c

/-- One question as delivered by `GET /paper/new`'s `list` field. -/
structure RawQuestion where
  paperDetailId : String
  title : String
  answerA : String
  answerB : String
  answerC : String
  answerD : String

/-- `q_data.get('title', '').strip().rstrip('.')`. -/
def titleOf (q : RawQuestion) : String :=
  rstripDots (pyStrip q.title)

/-- The four options, each `strip().rstrip('.')`-ed, in A–D order. -/
def optionsOf (q : RawQuestion) : List String :=
  [rstripDots (pyStrip q.answerA), rstripDots (pyStrip q.answerB),
   rstripDots (pyStrip q.answerC), rstripDots (pyStrip q.answerD)]

/-- Per-question outcome inside the `api_mode_answer` loop. -/
structure QuestionOutcome where
  answer : String × Char
  bank : Bank
  errors : List (String × List String)

/-- One iteration of the `api_mode_answer` answering loop: resolve the
question, derive the resolved letter (default `'A'`), then apply the
deliberate-miss injection; the submission record pairs the question's
`paperDetailId` with the final letter. -/
def apiQuestionStep (bank : Bank) (aiEnabled : Bool) (resps : Nat → AiResp)
    (cfgRetries : Option Int) (isWrong : Bool) (missR : Nat) (q : RawQuestion) :
    QuestionOutcome :=
  let res := getAnswerIndex bank aiEnabled resps cfgRetries (titleOf q) (optionsOf q)
  let c := correctChar res.idx
  ⟨(q.paperDetailId, finalAnswerChar isWrong missR c), res.bank, res.errors⟩

/-- The full answering loop of `api_mode_answer` over the paper's question
list, threading the knowledge base and accumulating the submission records
and failure-log records.  `respsAt i` is the AI transport for question `i`,
`wrongSet i` whether `i` was selected for a deliberate miss, `missR i` the
`random.choice` oracle for question `i`. -/
def answerLoop (aiEnabled : Bool) (respsAt : Nat → Nat → AiResp) (cfgRetries : Option Int)
    (wrongSet : Nat → Bool) (missR : Nat → Nat) :
    Bank → List RawQuestion → Nat →
    List (String × Char) × Bank × List (String × List String)
  | bank, [], _ => ([], bank, [])
  | bank, q :: rest, idx =>
    let out := apiQuestionStep bank aiEnabled (respsAt idx) cfgRetries (wrongSet idx) (missR idx) q
    let next := answerLoop aiEnabled respsAt cfgRetries wrongSet missR out.bank rest (idx + 1)
    (out.answer :: next.1, next.2.1, out.errors ++ next.2.2)

/-! ### The claim C6 reading of the parse rules, from the spec's words -/

/-- The response parsing as the claim's sentence states it, for comparison
with `parseAiText`: (1) a capital letter A–D found anywhere in the response
text itself; (2) failing that, a standalone digit 1–4 mapped to 0–3;
(3) failing that, a case-sensitive substring match of an option's trimmed
text inside the response text itself — i.e. the same rule chain applied to
the raw response rather than to its stripped, upper-cased form. -/
def claimParseResponse (content : String) (options : List String) : Int :=
  let idx1 := parseLetter content
  let idx2 := if idx1 = -1 then parseDigit content else idx1
  if idx2 = -1 then parseOptionSub content options else idx2

/-! ### Helper lemmas: whitespace stripping -/

theorem dropWhile_dropWhile_self {α : Type} (p : α → Bool) (l : List α) :
    (l.dropWhile p).dropWhile p = l.dropWhile p := by
  induction l with
  | nil => rfl
  | cons c l ih =>
    by_cases h : p c
    · simp [List.dropWhile_cons, h, ih]
    · simp [List.dropWhile_cons, h]

theorem lstripL_cons_space (c : Char) (hc : isPySpace c = true) (l : List Char) :
    lstripL (c :: l) = lstripL l := by
  simp [lstripL, List.dropWhile_cons, hc]

theorem lstripL_lstripL (l : List Char) : lstripL (lstripL l) = lstripL l :=
  dropWhile_dropWhile_self _ l

theorem rstripL_append_space (c : Char) (hc : isPySpace c = true) (l : List Char) :
    rstripL (l ++ [c]) = rstripL l := by
  simp [rstripL, List.dropWhile_cons, hc]

theorem rstripL_rstripL (l : List Char) : rstripL (rstripL l) = rstripL l := by
  simp [rstripL, dropWhile_dropWhile_self]

theorem rstripL_cons_space (c : Char) (hc : isPySpace c = true) (l : List Char) :
    rstripL (c :: l) = if rstripL l = [] then [] else c :: rstripL l := by
  have h : (c :: l).reverse = l.reverse ++ [c] := by simp
  by_cases he : rstripL l = []
  · rw [if_pos he]
    have he' : (List.dropWhile isPySpace l.reverse).isEmpty = true := by
      have h2 := congrArg List.reverse he
      simp only [rstripL, List.reverse_reverse, List.reverse_nil] at h2
      simp [List.isEmpty_iff, h2]
    rw [rstripL, h, List.dropWhile_append, if_pos he']
    simp [List.dropWhile_cons, hc]
  · rw [if_neg he]
    have he' : ¬ (List.dropWhile isPySpace l.reverse).isEmpty = true := by
      simp only [List.isEmpty_iff]
      intro hx
      exact he (by simp [rstripL, hx])
    rw [rstripL, h, List.dropWhile_append, if_neg he']
    simp [rstripL]

theorem stripL_cons_space (c : Char) (hc : isPySpace c = true) (l : List Char) :
    stripL (c :: l) = stripL l := by
  rw [stripL, rstripL_cons_space c hc]
  by_cases h : rstripL l = []
  · simp [h, stripL, lstripL]
  · rw [if_neg h, stripL, lstripL_cons_space c hc]

theorem stripL_append_space (c : Char) (hc : isPySpace c = true) (l : List Char) :
    stripL (l ++ [c]) = stripL l := by
  rw [stripL, rstripL_append_space c hc, stripL]

theorem stripL_rstripL (l : List Char) : stripL (rstripL l) = stripL l := by
  rw [stripL, rstripL_rstripL, stripL]

theorem stripL_ws_left (s l : List Char) (hs : ∀ c ∈ s, isPySpace c = true) :
    stripL (s ++ l) = stripL l := by
  induction s with
  | nil => rfl
  | cons c s ih =>
    have hc : isPySpace c = true := hs c (by simp)
    rw [List.cons_append, stripL_cons_space c hc]
    exact ih (fun d hd => hs d (by simp [hd]))

theorem stripL_lstripL (l : List Char) : stripL (lstripL l) = stripL l := by
  have hsplit : List.takeWhile isPySpace l ++ List.dropWhile isPySpace l = l :=
    List.takeWhile_append_dropWhile isPySpace l
  conv_rhs => rw [← hsplit]
  exact (stripL_ws_left _ _ (fun c hc => List.mem_takeWhile_imp hc)).symm

theorem stripL_stripL (l : List Char) : stripL (stripL l) = stripL l := by
  have h1 : stripL (stripL l) = stripL (rstripL l) := stripL_lstripL (rstripL l)
  rw [h1, stripL_rstripL]

theorem filter_not_dropWhile (l : List Char) :
    (l.dropWhile isPySpace).filter (fun c => !isPySpace c) =
      l.filter (fun c => !isPySpace c) := by
  induction l with
  | nil => rfl
  | cons c l ih =>
    by_cases h : isPySpace c
    · simp [List.dropWhile_cons, h, ih]
    · simp [List.dropWhile_cons, h]

theorem filter_not_stripL (l : List Char) :
    (stripL l).filter (fun c => !isPySpace c) = l.filter (fun c => !isPySpace c) := by
  rw [stripL, lstripL, filter_not_dropWhile, rstripL, List.filter_reverse,
    filter_not_dropWhile, List.filter_reverse, List.reverse_reverse]

theorem normL_stripL (l : List Char) : normL (stripL l) = normL l := by
  rw [normL, filter_not_stripL, normL]

theorem lstripL_sublist (l : List Char) : List.Sublist (lstripL l) l :=
  List.dropWhile_sublist _

theorem rstripL_sublist (l : List Char) : List.Sublist (rstripL l) l := by
  have h : List.Sublist (l.reverse.dropWhile isPySpace) l.reverse :=
    List.dropWhile_sublist _
  simpa [rstripL] using h.reverse

theorem stripL_sublist (l : List Char) : List.Sublist (stripL l) l :=
  (lstripL_sublist _).trans (rstripL_sublist l)


/-! ### Helper lemmas: pipe splitting and joining -/

theorem splitOnPipe_ne_nil (l : List Char) : splitOnPipe l ≠ [] := by
  induction l with
  | nil => simp [splitOnPipe]
  | cons c l ih =>
    by_cases h : isPipeChar c
    · simp [splitOnPipe, h]
    · simp [splitOnPipe, h]

theorem splitOnPipe_cons_pipe (c : Char) (l : List Char) (h : isPipeChar c = true) :
    splitOnPipe (c :: l) = [] :: splitOnPipe l := by
  simp [splitOnPipe, h]

theorem splitOnPipe_cons_free (c : Char) (l : List Char) (p : List Char)
    (ps : List (List Char)) (h : isPipeChar c = false) (hsp : splitOnPipe l = p :: ps) :
    splitOnPipe (c :: l) = (c :: p) :: ps := by
  simp [splitOnPipe, h, hsp]

theorem splitOnPipe_append_free (l₁ l₂ : List Char) (p : List Char) (ps : List (List Char))
    (hfree : ∀ c ∈ l₁, isPipeChar c = false) (h : splitOnPipe l₂ = p :: ps) :
    splitOnPipe (l₁ ++ l₂) = (l₁ ++ p) :: ps := by
  induction l₁ with
  | nil => simpa using h
  | cons c l₁ ih =>
    have hc : isPipeChar c = false := hfree c (by simp)
    have ih' := ih (fun d hd => hfree d (by simp [hd]))
    rw [List.cons_append, splitOnPipe_cons_free c _ (l₁ ++ p) ps hc ih']
    simp

theorem splitOnPipe_free (l : List Char) (hfree : ∀ c ∈ l, isPipeChar c = false) :
    splitOnPipe l = [l] := by
  have h : splitOnPipe ([] : List Char) = [] :: [] := rfl
  simpa using splitOnPipe_append_free l [] [] [] hfree h

theorem splitOnPipe_pieces_free (l : List Char) :
    ∀ p ∈ splitOnPipe l, ∀ c ∈ p, isPipeChar c = false := by
  induction l with
  | nil =>
    intro p hp
    simp only [splitOnPipe, List.mem_singleton] at hp
    simp [hp]
  | cons c l ih =>
    intro p hp
    by_cases h : isPipeChar c
    · rw [splitOnPipe_cons_pipe c l h] at hp
      rcases List.mem_cons.1 hp with hp | hp
      · simp [hp]
      · exact ih p hp
    · rcases hsp : splitOnPipe l with _ | ⟨q, qs⟩
      · exact absurd hsp (splitOnPipe_ne_nil l)
      · rw [splitOnPipe_cons_free c l q qs (by simpa using h) hsp] at hp
        rcases List.mem_cons.1 hp with hp | hp
        · intro d hd
          rcases List.mem_cons.1 (hp ▸ hd) with hd | hd
          · simpa [hd] using h
          · exact ih q (by simp [hsp]) d hd
        · exact ih p (by simp [hsp, hp])

/-- Number of pieces that survive the `if p.strip()` filter. -/
def nbCount (ls : List (List Char)) : Nat :=
  (ls.filter (fun p => decide (stripL p ≠ []))).length

theorem nbCount_cons (p : List Char) (ps : List (List Char)) :
    nbCount (p :: ps) = (if stripL p ≠ [] then 1 else 0) + nbCount ps := by
  by_cases h : stripL p = []
  · simp [nbCount, List.filter_cons, h]
  · simp [nbCount, List.filter_cons, h, Nat.add_comm]

theorem nbCount_pipeSplitRest (xs : List (List Char)) :
    nbCount (pipeSplitRest xs) = nbCount xs := by
  induction xs with
  | nil => rfl
  | cons p ps ih =>
    rcases ps with _ | ⟨q, qs⟩
    · show nbCount [lstripL p] = nbCount [p]
      rw [nbCount_cons, nbCount_cons, stripL_lstripL]
    · show nbCount (stripL p :: pipeSplitRest (q :: qs)) = nbCount (p :: q :: qs)
      rw [nbCount_cons, nbCount_cons, stripL_stripL, ih]

theorem nbCount_pipeSplitAll (xs : List (List Char)) :
    nbCount (pipeSplitAll xs) = nbCount xs := by
  rcases xs with _ | ⟨p, _ | ⟨q, qs⟩⟩
  · rfl
  · rfl
  · show nbCount (rstripL p :: pipeSplitRest (q :: qs)) = nbCount (p :: q :: qs)
    rw [nbCount_cons, nbCount_cons, stripL_rstripL, nbCount_pipeSplitRest]

theorem nbCount_joinSep (ps : List (List Char)) (hne : ps ≠ [])
    (hfree : ∀ p ∈ ps, ∀ c ∈ p, isPipeChar c = false) :
    nbCount (splitOnPipe (joinSep sepPipe ps)) = nbCount ps := by
  induction ps with
  | nil => exact absurd rfl hne
  | cons p ps ih =>
    rcases ps with _ | ⟨q, qs⟩
    · rw [show joinSep sepPipe [p] = p from rfl, splitOnPipe_free p (hfree p (by simp))]
    · have hJ : joinSep sepPipe (p :: q :: qs) =
          (p ++ [' ']) ++ ('|' :: ' ' :: joinSep sepPipe (q :: qs)) := by
        show p ++ sepPipe ++ joinSep sepPipe (q :: qs) = _
        simp [sepPipe]
      rcases hsp : splitOnPipe (joinSep sepPipe (q :: qs)) with _ | ⟨piece, pieces⟩
      · exact absurd hsp (splitOnPipe_ne_nil _)
      · have hsp2 : splitOnPipe (' ' :: joinSep sepPipe (q :: qs)) =
            (' ' :: piece) :: pieces :=
          splitOnPipe_cons_free ' ' _ piece pieces rfl hsp
        have h1 : splitOnPipe ('|' :: ' ' :: joinSep sepPipe (q :: qs)) =
            [] :: (' ' :: piece) :: pieces := by
          rw [splitOnPipe_cons_pipe '|' _ rfl, hsp2]
        have hfree1 : ∀ c ∈ p ++ [' '], isPipeChar c = false := by
          intro c hc
          rcases List.mem_append.1 hc with hc | hc
          · exact hfree p (by simp) c hc
          · simp only [List.mem_singleton] at hc
            subst hc; rfl
        have h2 := splitOnPipe_append_free (p ++ [' ']) _ [] ((' ' :: piece) :: pieces)
          hfree1 h1
        rw [hJ, h2]
        have ihv : nbCount (splitOnPipe (joinSep sepPipe (q :: qs))) = nbCount (q :: qs) :=
          ih (by simp) (fun r hr => hfree r (by simp [hr]))
        rw [hsp] at ihv
        have e1 : stripL (p ++ [' '] ++ []) = stripL p := by
          rw [List.append_nil, stripL_append_space ' ' rfl p]
        have e2 : stripL (' ' :: piece) = stripL piece := stripL_cons_space ' ' rfl piece
        rw [nbCount_cons, nbCount_cons, e1, e2,
          show nbCount (p :: q :: qs) = (if stripL p ≠ [] then 1 else 0) + nbCount (q :: qs)
            from nbCount_cons p (q :: qs),
          ← ihv, nbCount_cons piece pieces]

theorem meaningsL_joinSep_length (ps : List (List Char)) (hne : ps ≠ [])
    (hfree : ∀ p ∈ ps, ∀ c ∈ p, isPipeChar c = false)
    (hnb : ∀ p ∈ ps, stripL p ≠ []) :
    (meaningsL (joinSep sepPipe ps)).length = ps.length := by
  have h1 : (meaningsL (joinSep sepPipe ps)).length =
      nbCount (pipeSplitL (joinSep sepPipe ps)) := rfl
  rw [h1, pipeSplitL, nbCount_pipeSplitAll, nbCount_joinSep ps hne hfree,
    nbCount, List.filter_eq_self.2 (fun p hp => by simpa using hnb p hp)]

theorem mem_pipeSplitRest (xs : List (List Char)) :
    ∀ m ∈ pipeSplitRest xs, ∃ x ∈ xs, List.Sublist m x := by
  induction xs with
  | nil => intro m hm; simp [pipeSplitRest] at hm
  | cons p ps ih =>
    intro m hm
    rcases ps with _ | ⟨q, qs⟩
    · simp only [pipeSplitRest, List.mem_singleton] at hm
      exact ⟨p, by simp, hm ▸ lstripL_sublist p⟩
    · rcases List.mem_cons.1 hm with hm' | hm'
      · exact ⟨p, by simp, hm' ▸ stripL_sublist p⟩
      · obtain ⟨x, hx, hsub⟩ := ih m hm'
        exact ⟨x, List.mem_cons_of_mem p hx, hsub⟩

theorem mem_pipeSplitL (l : List Char) :
    ∀ m ∈ pipeSplitL l, ∃ x ∈ splitOnPipe l, List.Sublist m x := by
  intro m hm
  rw [pipeSplitL] at hm
  rcases hsp : splitOnPipe l with _ | ⟨p, _ | ⟨q, qs⟩⟩ <;> rw [hsp] at hm
  · simp [pipeSplitAll] at hm
  · simp only [pipeSplitAll, List.mem_singleton] at hm
    exact ⟨p, by simp [hsp], hm ▸ List.Sublist.refl p⟩
  · rcases List.mem_cons.1 hm with hm' | hm'
    · exact ⟨p, by simp [hsp], hm' ▸ rstripL_sublist p⟩
    · obtain ⟨x, hx, hsub⟩ := mem_pipeSplitRest _ m hm'
      exact ⟨x, List.mem_cons_of_mem p hx, hsub⟩

theorem mem_meaningsL_free (l : List Char) (m : List Char) (hm : m ∈ meaningsL l) :
    ∀ c ∈ m, isPipeChar c = false := by
  have hm' : m ∈ pipeSplitL l := List.mem_of_mem_filter hm
  obtain ⟨x, hx, hsub⟩ := mem_pipeSplitL l m hm'
  exact fun c hc => splitOnPipe_pieces_free l x hx c (hsub.mem hc)

theorem mem_meaningsL_nonblank (l : List Char) (m : List Char) (hm : m ∈ meaningsL l) :
    stripL m ≠ [] := by
  have := List.of_mem_filter hm
  simpa using this

theorem mem_meaningsOfVal_free (v : BankVal) (m : List Char) (hm : m ∈ meaningsOfVal v) :
    ∀ c ∈ m, isPipeChar c = false := by
  cases v with
  | str s => exact mem_meaningsL_free _ m hm
  | list l =>
    simp only [meaningsOfVal, List.mem_flatten, List.mem_map] at hm
    obtain ⟨_, ⟨s, _, rfl⟩, hm2⟩ := hm
    exact mem_meaningsL_free _ m hm2

theorem mem_meaningsOfVal_nonblank (v : BankVal) (m : List Char)
    (hm : m ∈ meaningsOfVal v) : stripL m ≠ [] := by
  cases v with
  | str s => exact mem_meaningsL_nonblank _ m hm
  | list l =>
    simp only [meaningsOfVal, List.mem_flatten, List.mem_map] at hm
    obtain ⟨_, ⟨s, _, rfl⟩, hm2⟩ := hm
    exact mem_meaningsL_nonblank _ m hm2


/-! ### Helper lemmas: option matching -/

theorem firstIdx_lt_length {α : Type} (p : α → Bool) (l : List α) :
    ∀ i, firstIdx p l = some i → i < l.length := by
  induction l with
  | nil => intro i h; simp [firstIdx] at h
  | cons a rest ih =>
    intro i h
    by_cases hp : p a
    · rw [firstIdx, if_pos hp] at h
      cases h
      simp
    · rw [firstIdx, if_neg hp] at h
      cases hfi : firstIdx p rest with
      | none => rw [hfi] at h; simp at h
      | some j =>
        rw [hfi] at h
        simp only [Option.map_some'] at h
        cases h
        have := ih j hfi
        simp
        omega

theorem matchMeanings_lt_length (ms : List (List Char)) (options : List String) :
    ∀ i, matchMeanings ms options = some i → i < options.length := by
  induction ms with
  | nil => intro i h; simp [matchMeanings] at h
  | cons n rest ih =>
    intro i h
    cases hfi : firstIdx (fun opt => normL opt.data == n) options with
    | some j =>
      rw [show matchMeanings (n :: rest) options =
        match firstIdx (fun opt => normL opt.data == n) options with
        | some i => some i
        | none => matchMeanings rest options from rfl, hfi] at h
      cases h
      exact firstIdx_lt_length _ _ _ hfi
    | none =>
      rw [show matchMeanings (n :: rest) options =
        match firstIdx (fun opt => normL opt.data == n) options with
        | some i => some i
        | none => matchMeanings rest options from rfl, hfi] at h
      exact ih i h

theorem matchMeanings_first_hit (pre post : List (List Char)) (m : List Char)
    (options : List String)
    (hpre : ∀ m' ∈ pre, firstIdx (fun opt => normL opt.data == m') options = none)
    (hm : firstIdx (fun opt => normL opt.data == m) options ≠ none) :
    matchMeanings (pre ++ m :: post) options =
      firstIdx (fun opt => normL opt.data == m) options := by
  induction pre with
  | nil =>
    cases hfi : firstIdx (fun opt => normL opt.data == m) options with
    | none => exact absurd hfi hm
    | some j =>
      rw [List.nil_append]
      rw [show matchMeanings (m :: post) options =
        match firstIdx (fun opt => normL opt.data == m) options with
        | some i => some i
        | none => matchMeanings post options from rfl, hfi]
  | cons n pre ih =>
    have hn := hpre n (by simp)
    rw [List.cons_append]
    rw [show matchMeanings (n :: (pre ++ m :: post)) options =
      match firstIdx (fun opt => normL opt.data == n) options with
      | some i => some i
      | none => matchMeanings (pre ++ m :: post) options from rfl, hn]
    exact ih (fun m' hm' => hpre m' (by simp [hm']))

/-! ### Helper lemmas: the AI attempt loop -/

theorem aiFail_idx (total attempt : Nat) (rest : AiRun) :
    (aiFail total attempt rest).idx = rest.idx := by
  rw [aiFail]
  by_cases h : attempt < total
  · rw [if_pos h]
  · rw [if_neg h]

theorem aiLoop_succ_raised (resps : Nat → AiResp) (options : List String)
    (total attempt r : Nat) (hr : resps attempt = .raised) :
    aiLoop resps options total attempt (r + 1) =
      aiFail total attempt (aiLoop resps options total (attempt + 1) r) := by
  rw [aiLoop, hr]

theorem aiLoop_succ_status (resps : Nat → AiResp) (options : List String)
    (total attempt r code : Nat) (content : String)
    (hr : resps attempt = .status code content) :
    aiLoop resps options total attempt (r + 1) =
      (if code ≠ 200 then aiFail total attempt (aiLoop resps options total (attempt + 1) r)
      else if parseAiText content options = 0 ∨ parseAiText content options = 1 ∨
          parseAiText content options = 2 ∨ parseAiText content options = 3 then
        ⟨parseAiText content options, 1, []⟩
      else aiFail total attempt (aiLoop resps options total (attempt + 1) r)) := by
  rw [aiLoop, hr]

theorem aiLoop_idx_valid (resps : Nat → AiResp) (options : List String) (total : Nat) :
    ∀ (remaining attempt : Nat),
      (aiLoop resps options total attempt remaining).idx = -1 ∨
        (0 ≤ (aiLoop resps options total attempt remaining).idx ∧
          (aiLoop resps options total attempt remaining).idx ≤ 3) := by
  intro remaining
  induction remaining with
  | zero => intro attempt; exact Or.inl rfl
  | succ r ih =>
    intro attempt
    have ihv := ih (attempt + 1)
    cases hr : resps attempt with
    | raised =>
      rw [aiLoop_succ_raised resps options total attempt r hr, aiFail_idx]
      exact ihv
    | status code content =>
      rw [aiLoop_succ_status resps options total attempt r code content hr]
      by_cases hc : code ≠ 200
      · rw [if_pos hc, aiFail_idx]
        exact ihv
      · rw [if_neg hc]
        by_cases hp : parseAiText content options = 0 ∨ parseAiText content options = 1 ∨
            parseAiText content options = 2 ∨ parseAiText content options = 3
        · rw [if_pos hp]
          right
          rcases hp with h | h | h | h <;> rw [h] <;> constructor <;> decide
        · rw [if_neg hp, aiFail_idx]
          exact ihv

theorem aiLoop_all_fail (resps : Nat → AiResp) (options : List String) (total : Nat)
    (hfail : ∀ i, attemptFails options (resps i) = true) :
    ∀ (remaining attempt : Nat),
      aiLoop resps options total attempt remaining =
        ⟨-1, remaining, List.replicate (min remaining (total - attempt)) (1/2 : ℚ)⟩ := by
  intro remaining
  induction remaining with
  | zero => intro attempt; simp [aiLoop]
  | succ r ih =>
    intro attempt
    have ihv := ih (attempt + 1)
    have hstep : aiLoop resps options total attempt (r + 1) =
        aiFail total attempt (aiLoop resps options total (attempt + 1) r) := by
      have h := hfail attempt
      cases hr : resps attempt with
      | raised => exact aiLoop_succ_raised resps options total attempt r hr
      | status code content =>
        rw [hr] at h
        rw [aiLoop_succ_status resps options total attempt r code content hr]
        by_cases hc : code ≠ 200
        · rw [if_pos hc]
        · rw [if_neg hc]
          have hp : ¬ (parseAiText content options = 0 ∨ parseAiText content options = 1 ∨
              parseAiText content options = 2 ∨ parseAiText content options = 3) := by
            simp only [attemptFails] at h
            rcases Bool.or_eq_true_iff.1 h with h1 | h1
            · exact absurd (by simpa using h1) hc
            · simpa using h1
          rw [if_neg hp]
    rw [hstep, ihv, aiFail]
    by_cases hlt : attempt < total
    · rw [if_pos hlt]
      have hmin : min (r + 1) (total - attempt) = (min r (total - (attempt + 1))) + 1 := by
        omega
      rw [hmin]
      rfl
    · rw [if_neg hlt]
      have hmin : min (r + 1) (total - attempt) = min r (total - (attempt + 1)) := by
        omega
      rw [hmin]

/-! ### Helper lemmas: the redirect loop -/

theorem exchangeLoop_all_noToken (resps : Nat → HttpResp) :
    ∀ (fuel i : Nat),
      (∀ j, i ≤ j → j < i + fuel → (resps j).status = 302 ∧
        extractFragToken (resps j).location = .noToken) →
      exchangeLoop resps i fuel = none := by
  intro fuel
  induction fuel with
  | zero => intro i _; rfl
  | succ f ih =>
    intro i h
    have h0 := h i (Nat.le_refl i) (by omega)
    rw [exchangeLoop]
    simp only [h0.1, if_pos rfl, h0.2]
    exact ih (i + 1) (fun j hj1 hj2 => h j (by omega) (by omega))

/-! ### Helper lemmas: sampling without replacement -/

theorem getD_not_mem_eraseIdx (l : List Nat) :
    ∀ i, i < l.length → l.Nodup → l.getD i 0 ∉ l.eraseIdx i := by
  induction l with
  | nil => intro i h; simp at h
  | cons a t ih =>
    intro i h hn
    cases i with
    | zero =>
      have ha : (a :: t).getD 0 0 = a := rfl
      rw [ha, List.eraseIdx_cons_zero]
      exact (List.nodup_cons.1 hn).1
    | succ i =>
      have hit : i < t.length := by simpa using h
      rw [List.getD_cons_succ, List.eraseIdx_cons_succ]
      intro hmem
      rcases List.mem_cons.1 hmem with hmem | hmem
      · have hmt : t.getD i 0 ∈ t := by
          rw [List.getD_eq_getElem t 0 hit]
          exact List.getElem_mem hit
        exact (List.nodup_cons.1 hn).1 (hmem ▸ hmt)
      · exact ih i hit (List.nodup_cons.1 hn).2 hmem

theorem sampleAux_spec (r : Nat → Nat) :
    ∀ (k : Nat) (pool : List Nat) (step : Nat), k ≤ pool.length → pool.Nodup →
      (sampleAux r pool k step).length = k ∧ (sampleAux r pool k step).Nodup ∧
        ∀ x ∈ sampleAux r pool k step, x ∈ pool := by
  intro k
  induction k with
  | zero =>
    intro pool step _ _
    rcases pool with _ | ⟨a, pool⟩ <;>
      exact ⟨rfl, List.nodup_nil, fun x hx => by simp [sampleAux] at hx⟩
  | succ k ih =>
    intro pool step h hn
    rcases pool with _ | ⟨a, pool⟩
    · simp at h
    · have hi : r step % (a :: pool).length < (a :: pool).length :=
        Nat.mod_lt _ (by simp)
      have hlen : ((a :: pool).eraseIdx (r step % (a :: pool).length)).length =
          (a :: pool).length - 1 := List.length_eraseIdx_of_lt hi
      have hk : k ≤ ((a :: pool).eraseIdx (r step % (a :: pool).length)).length := by
        rw [hlen]; simp at h ⊢; omega
      have hnod : ((a :: pool).eraseIdx (r step % (a :: pool).length)).Nodup :=
        (List.eraseIdx_sublist (a :: pool) _).nodup hn
      obtain ⟨ih1, ih2, ih3⟩ := ih _ (step + 1) hk hnod
      have hunf : sampleAux r (a :: pool) (k + 1) step =
          (a :: pool).getD (r step % (a :: pool).length) 0 ::
            sampleAux r ((a :: pool).eraseIdx (r step % (a :: pool).length)) k (step + 1) :=
        rfl
      refine ⟨?_, ?_, ?_⟩
      · rw [hunf, List.length_cons, ih1]
      · rw [hunf, List.nodup_cons]
        refine ⟨?_, ih2⟩
        intro hmem
        exact getD_not_mem_eraseIdx (a :: pool) _ hi hn (ih3 _ hmem)
      · intro x hx
        rw [hunf] at hx
        rcases List.mem_cons.1 hx with hx | hx
        · rw [hx, List.getD_eq_getElem _ 0 hi]
          exact List.getElem_mem hi
        · exact (List.eraseIdx_sublist (a :: pool) _).subset (ih3 x hx)

/-! ### Helper lemmas: resolver and miss injection -/

theorem aiChooseAnswer_idx_valid (enabled : Bool) (resps : Nat → AiResp)
    (cfg : Option Int) (options : List String) :
    (aiChooseAnswer enabled resps cfg options).idx = -1 ∨
      (0 ≤ (aiChooseAnswer enabled resps cfg options).idx ∧
        (aiChooseAnswer enabled resps cfg options).idx ≤ 3) := by
  cases enabled with
  | false => exact Or.inl rfl
  | true =>
    have hunf : aiChooseAnswer true resps cfg options =
        aiLoop resps options (1 + retriesOf cfg) 1 (1 + retriesOf cfg) := rfl
    rw [hunf]
    exact aiLoop_idx_valid resps options (1 + retriesOf cfg) (1 + retriesOf cfg) 1

theorem bankAnswer_lt_length (bank : Bank) (question : String) (options : List String) :
    ∀ i, bankAnswer bank question options = some i → i < options.length := by
  intro i h
  rw [bankAnswer] at h
  cases hget : bankGet bank question with
  | none => rw [hget] at h; simp at h
  | some v =>
    rw [hget] at h
    have h' : (if v.truthy = true then
        matchMeanings (uniqueNormAux [] (meaningsOfVal v)) options else none) = some i := h
    by_cases ht : v.truthy = true
    · rw [if_pos ht] at h'
      exact matchMeanings_lt_length _ options i h'
    · rw [if_neg ht] at h'; simp at h'

theorem findDigitAux_digit : ∀ (prev : Option Char) (l : List Char) (d : Char),
    findDigitAux prev l = some d → d = '1' ∨ d = '2' ∨ d = '3' ∨ d = '4' := by
  intro prev l
  induction l generalizing prev with
  | nil => intro d h; simp [findDigitAux] at h
  | cons c rest ih =>
    intro d h
    rw [findDigitAux] at h
    by_cases hcond : ((c == '1' || c == '2' || c == '3' || c == '4')
        && boundaryOk prev && boundaryOk rest.head?) = true
    · rw [if_pos hcond] at h
      cases h
      have hd : (c == '1' || c == '2' || c == '3' || c == '4') = true := by
        rcases Bool.and_eq_true_iff.1 hcond with ⟨h1, _⟩
        exact (Bool.and_eq_true_iff.1 h1).1
      have hd' : ((c = '1' ∨ c = '2') ∨ c = '3') ∨ c = '4' := by simpa using hd
      tauto
    · rw [if_neg hcond] at h
      exact ih (some c) d h

theorem getD_mod_mem (l : List Char) (r : Nat) (h : l ≠ []) :
    l.getD (r % l.length) 'A' ∈ l := by
  have hl : 0 < l.length := List.length_pos.2 h
  have hlt : r % l.length < l.length := Nat.mod_lt _ hl
  rw [List.getD_eq_getElem _ _ hlt]
  exact List.getElem_mem hlt

theorem finalAnswerChar_wrong (c0 : Char) (r : Nat)
    (h : (wrongOptionChars c0).isEmpty = false) :
    finalAnswerChar true r c0 =
      (wrongOptionChars c0).getD (r % (wrongOptionChars c0).length) 'A' := by
  have hunf : finalAnswerChar true r c0 =
      (if (wrongOptionChars c0).isEmpty then c0
      else (wrongOptionChars c0).getD (r % (wrongOptionChars c0).length) 'A') := rfl
  rw [hunf, h]
  rfl

/-! ### Claim theorems -/

/-- C3: for every question count and configured expected score, the number of
deliberate misses equals `clamp(100 - expectedScore, 0, questionCount)` — the
expected score acts as a literal defect budget, not a percentage; in
particular `wrongCountInt 80 10 = 10` (all ten questions missed); and for
every sampling oracle the selected indices are exactly that many distinct
indices drawn from `[0, questionCount)`. -/
theorem C3_missCount_literal_clamp :
    (∀ (e : Int) (n : Nat), wrongCountInt e n = max 0 (min (100 - e) (n : Int))) ∧
    wrongCountInt 80 10 = 10 ∧
    (∀ (r : Nat → Nat) (e : Int) (n : Nat),
      (wrongIndices r e n).length = (wrongCountInt e n).toNat ∧
      (wrongIndices r e n).Nodup ∧
      ∀ x ∈ wrongIndices r e n, x < n) := by
  refine ⟨?_, by decide, ?_⟩
  · intro e n
    rw [wrongCountInt]
    split_ifs <;> omega
  · intro r e n
    have hk : (wrongCountInt e n).toNat ≤ n := by
      rw [wrongCountInt]; split_ifs <;> omega
    by_cases h0 : (wrongCountInt e n).toNat > 0
    · have hunf : wrongIndices r e n =
          sampleAux r (List.range n) (wrongCountInt e n).toNat 0 := by
        have : wrongIndices r e n =
            (if (wrongCountInt e n).toNat > 0 then
              sampleAux r (List.range n) (wrongCountInt e n).toNat 0
            else []) := rfl
        rw [this, if_pos h0]
      have hspec := sampleAux_spec r ((wrongCountInt e n).toNat) (List.range n) 0
        (by simpa using hk) (List.nodup_range n)
      rw [hunf]
      exact ⟨hspec.1, hspec.2.1, fun x hx => List.mem_range.1 (hspec.2.2 x hx)⟩
    · have hunf : wrongIndices r e n = [] := by
        have : wrongIndices r e n =
            (if (wrongCountInt e n).toNat > 0 then
              sampleAux r (List.range n) (wrongCountInt e n).toNat 0
            else []) := rfl
        rw [this, if_neg h0]
      rw [hunf]
      refine ⟨?_, List.nodup_nil, by simp⟩
      simp only [List.length_nil]
      omega

/-- The redirect chain of the spec's synthetic example: hop 0 answers 302
with the fragment URL in `Location`, the next hop is a plain 200 and the
cookie jar never holds an `X-Auth-Token`. -/
def specExampleChain : Nat → HttpResp := fun i =>
  if i = 0 then ⟨302, "https://x/#/done?token=abc123&x=1", none⟩
  else ⟨200, "", none⟩

/-- C1, counterexample: on the claim's own example
`Location: https://x/#/done?token=abc123&x=1` the fragment parser produces
the key `"/done?token"` (not `"token"`), so no token is extracted — the hop
is followed instead, and the whole exchange fails rather than returning
`"abc123"`. -/
theorem C1_counterexample :
    extractFragToken "https://x/#/done?token=abc123&x=1" = FragResult.noToken ∧
    exchangeTicketForToken specExampleChain = none := by
  constructor
  · decide
  · decide

/-- C1, amended: the exchange follows at most 10 redirects; at a 302 hop the
fragment after the first `#` (leading `?` stripped) is parsed as
`&`-separated `key=value` pairs and a non-empty value under the key exactly
`token` is returned immediately; otherwise the redirect is followed without
consulting the cookie jar.  The cookie jar's `X-Auth-Token` is consulted
only when a hop answers a non-302 status, and the exchange then ends at that
hop, succeeding or failing with it.  Exhausting all 10 hops on 302 responses
without an extractable token fails the exchange even when the cookie is
present throughout.  For a fragment like `#?token=abc123&x=1` (no path
prefix) the token is extracted. -/
theorem C1_amended_exchange :
    (∀ resps : Nat → HttpResp,
      (∀ i, i < 10 → (resps i).status = 302 ∧
        extractFragToken (resps i).location = FragResult.noToken) →
      exchangeTicketForToken resps = none) ∧
    (∀ (resps : Nat → HttpResp) (v : String), (resps 0).status ≠ 302 →
      (resps 0).cookieToken = some v → exchangeTicketForToken resps = some v) ∧
    (∀ resps : Nat → HttpResp, (resps 0).status ≠ 302 →
      (resps 0).cookieToken = none → exchangeTicketForToken resps = none) ∧
    (∀ (resps : Nat → HttpResp) (tok : String), (resps 0).status = 302 →
      extractFragToken (resps 0).location = FragResult.found tok →
      exchangeTicketForToken resps = some tok) ∧
    extractFragToken "https://x/#?token=abc123&x=1" = FragResult.found "abc123" := by
  have hunf : ∀ resps : Nat → HttpResp, exchangeTicketForToken resps =
      (if (resps 0).status = 302 then
        match extractFragToken (resps 0).location with
        | FragResult.found tok => some tok
        | FragResult.noToken => exchangeLoop resps 1 9
        | FragResult.err => none
      else (resps 0).cookieToken) := fun _ => rfl
  refine ⟨?_, ?_, ?_, ?_, by decide⟩
  · intro resps h
    exact exchangeLoop_all_noToken resps 10 0 (fun j hj1 hj2 => h j (by omega))
  · intro resps v h1 h2
    rw [hunf, if_neg h1, h2]
  · intro resps h1 h2
    rw [hunf, if_neg h1, h2]
  · intro resps tok h1 h2
    rw [hunf, if_pos h1, h2]

/-- A chain whose first hop is a non-302 response with the bearer-token
cookie set. -/
def cookieChain : Nat → HttpResp := fun _ => ⟨200, "", some "cookietok"⟩

/-- C1, witness: on a chain whose first hop is a 200 with the cookie set,
the exchange returns the cookie value. -/
theorem C1_amended_witness : exchangeTicketForToken cookieChain = some "cookietok" :=
  C1_amended_exchange.2.1 cookieChain "cookietok" (by decide) rfl

/-- C2, counterexample: for a question selected for a deliberate miss whose
resolution failed (`idx = -1`), the code substitutes the default `'A'` as
the "correct" letter and then draws the final letter from the three letters
other than `'A'` — so `'A'` is never a possible submission, contradicting
the claim that any of the four letters may be chosen. -/
theorem C2_counterexample :
    ¬ ∃ r : Nat, finalAnswerChar true r (correctChar (-1)) = 'A' := by
  rintro ⟨r, h⟩
  have hc : correctChar (-1) = 'A' := rfl
  rw [hc] at h
  rw [finalAnswerChar_wrong 'A' r (by decide)] at h
  have hw : wrongOptionChars 'A' = ['B', 'C', 'D'] := by decide
  rw [hw] at h
  have h3 : r % (['B', 'C', 'D'] : List Char).length = 0 ∨
      r % (['B', 'C', 'D'] : List Char).length = 1 ∨
      r % (['B', 'C', 'D'] : List Char).length = 2 := by
    have : r % (['B', 'C', 'D'] : List Char).length < 3 := Nat.mod_lt _ (by decide)
    omega
  rcases h3 with h3 | h3 | h3 <;> rw [h3] at h <;> exact absurd h (by decide)

/-- C2, amended: for a selected question whose resolved answer is known
(index 0–3), the final letter is drawn from the three letters other than
the resolved one, and each of those three is attainable; for a selected
question whose resolution failed, the default `'A'` stands in for the
resolved letter, so the final letter is drawn from `{'B','C','D'}` (never
`'A'`), each attainable. -/
theorem C2_amended_missLetter :
    (∀ idx : Int, 0 ≤ idx → idx ≤ 3 →
      (∀ r : Nat, finalAnswerChar true r (correctChar idx) ≠ correctChar idx ∧
        finalAnswerChar true r (correctChar idx) ∈ abcdChars) ∧
      (∀ c ∈ abcdChars, c ≠ correctChar idx →
        ∃ r : Nat, finalAnswerChar true r (correctChar idx) = c)) ∧
    (∀ r : Nat, finalAnswerChar true r (correctChar (-1)) ∈ (['B', 'C', 'D'] : List Char)) ∧
    (∀ c ∈ (['B', 'C', 'D'] : List Char), ∃ r : Nat,
      finalAnswerChar true r (correctChar (-1)) = c) := by
  have key : ∀ c0 : Char, wrongOptionChars c0 ≠ [] →
      ∀ r : Nat, finalAnswerChar true r c0 ∈ wrongOptionChars c0 := by
    intro c0 hne r
    rw [finalAnswerChar_wrong c0 r (by simpa using hne)]
    exact getD_mod_mem _ r hne
  refine ⟨?_, ?_, ?_⟩
  · intro idx h0 h3
    have hidx : idx = 0 ∨ idx = 1 ∨ idx = 2 ∨ idx = 3 := by omega
    rcases hidx with rfl | rfl | rfl | rfl
    · refine ⟨fun r => ?_, ?_⟩
      · have hm := key (correctChar 0) (by decide) r
        rw [show wrongOptionChars (correctChar 0) = ['B', 'C', 'D'] from by decide] at hm
        simp only [List.mem_cons, List.not_mem_nil, or_false] at hm
        rcases hm with hm | hm | hm <;> rw [hm] <;> exact ⟨by decide, by decide⟩
      · intro c hc hne
        fin_cases hc
        · exact absurd rfl hne
        · exact ⟨0, by decide⟩
        · exact ⟨1, by decide⟩
        · exact ⟨2, by decide⟩
    · refine ⟨fun r => ?_, ?_⟩
      · have hm := key (correctChar 1) (by decide) r
        rw [show wrongOptionChars (correctChar 1) = ['A', 'C', 'D'] from by decide] at hm
        simp only [List.mem_cons, List.not_mem_nil, or_false] at hm
        rcases hm with hm | hm | hm <;> rw [hm] <;> exact ⟨by decide, by decide⟩
      · intro c hc hne
        fin_cases hc
        · exact ⟨0, by decide⟩
        · exact absurd rfl hne
        · exact ⟨1, by decide⟩
        · exact ⟨2, by decide⟩
    · refine ⟨fun r => ?_, ?_⟩
      · have hm := key (correctChar 2) (by decide) r
        rw [show wrongOptionChars (correctChar 2) = ['A', 'B', 'D'] from by decide] at hm
        simp only [List.mem_cons, List.not_mem_nil, or_false] at hm
        rcases hm with hm | hm | hm <;> rw [hm] <;> exact ⟨by decide, by decide⟩
      · intro c hc hne
        fin_cases hc
        · exact ⟨0, by decide⟩
        · exact ⟨1, by decide⟩
        · exact absurd rfl hne
        · exact ⟨2, by decide⟩
    · refine ⟨fun r => ?_, ?_⟩
      · have hm := key (correctChar 3) (by decide) r
        rw [show wrongOptionChars (correctChar 3) = ['A', 'B', 'C'] from by decide] at hm
        simp only [List.mem_cons, List.not_mem_nil, or_false] at hm
        rcases hm with hm | hm | hm <;> rw [hm] <;> exact ⟨by decide, by decide⟩
      · intro c hc hne
        fin_cases hc
        · exact ⟨0, by decide⟩
        · exact ⟨1, by decide⟩
        · exact ⟨2, by decide⟩
        · exact absurd rfl hne
  · intro r
    have hm := key (correctChar (-1)) (by decide) r
    rw [show wrongOptionChars (correctChar (-1)) = ['B', 'C', 'D'] from by decide] at hm
    exact hm
  · intro c hc
    fin_cases hc
    · exact ⟨0, by decide⟩
    · exact ⟨1, by decide⟩
    · exact ⟨2, by decide⟩

/-- C2, witness: with resolved index 0 (letter `'A'`) and oracle 0, the
injected wrong letter is `'B'`, which differs from `'A'` and lies in A–D. -/
theorem C2_amended_witness :
    finalAnswerChar true 0 (correctChar 0) ≠ correctChar 0 ∧
    finalAnswerChar true 0 (correctChar 0) ∈ abcdChars :=
  (C2_amended_missLetter.1 0 (by decide) (by decide)).1 0

/-- C4: when a knowledge-base entry is present (and truthy), resolution
walks the deduplicated normalised meanings in their stored order and
returns, for the earliest meaning that matches any option, the index of the
first option whose normalised text equals it — meaning order takes priority
over option order. -/
theorem C4_meaning_priority (bank : Bank) (question : String) (options : List String)
    (v : BankVal) (pre post : List (List Char)) (m : List Char)
    (hget : bankGet bank question = some v) (htr : v.truthy = true)
    (hsplit : uniqueNormAux [] (meaningsOfVal v) = pre ++ m :: post)
    (hpre : ∀ m' ∈ pre, firstIdx (fun opt => normL opt.data == m') options = none)
    (hm : firstIdx (fun opt => normL opt.data == m) options ≠ none) :
    bankAnswer bank question options =
      firstIdx (fun opt => normL opt.data == m) options := by
  rw [bankAnswer, hget]
  have hred : (match some v with
      | some v => if v.truthy = true then
          matchMeanings (uniqueNormAux [] (meaningsOfVal v)) options
        else none
      | none => (none : Option Nat)) =
      (if v.truthy = true then
        matchMeanings (uniqueNormAux [] (meaningsOfVal v)) options
      else none) := rfl
  rw [hred, if_pos htr, hsplit]
  exact matchMeanings_first_hit pre post m options hpre hm

/-- C4, witness: bank entry `"largest|big"` with options
`["small", "largest", "big", "tiny"]` resolves to index 1 (`"largest"`),
not 2 (`"big"`), because `"largest"` is the first meaning. -/
theorem C4_witness :
    bankAnswer [("q", BankVal.str "largest|big")] "q"
      ["small", "largest", "big", "tiny"] = some 1 := by
  have h := C4_meaning_priority [("q", BankVal.str "largest|big")] "q"
    ["small", "largest", "big", "tiny"] (BankVal.str "largest|big")
    [] ["big".data] "largest".data rfl (by decide) (by decide)
    (fun m' hm' => absurd hm' (List.not_mem_nil m')) (by decide)
  rw [h]
  decide

/-- C5: the AI judge runs `1 + configuredRetries` attempts, the configured
retries defaulting to 3 and clamped to be non-negative; when every attempt
fails (exception, non-200 status, or unparsable body) the judge makes
exactly that many attempts, sleeps a fixed 0.5 seconds after each failure
except the last, and returns `-1`. -/
theorem C5_retry_policy :
    (retriesOf none = 3 ∧ (∀ r : Int, r < 0 → retriesOf (some r) = 0) ∧
      (∀ r : Int, 0 ≤ r → retriesOf (some r) = r.toNat)) ∧
    (∀ (resps : Nat → AiResp) (cfgRetries : Option Int) (options : List String),
      (∀ i, attemptFails options (resps i) = true) →
      aiChooseAnswer true resps cfgRetries options =
        ⟨-1, 1 + retriesOf cfgRetries, List.replicate (retriesOf cfgRetries) (1/2 : ℚ)⟩) := by
  refine ⟨⟨rfl, ?_, ?_⟩, ?_⟩
  · intro r hr
    rw [retriesOf]
    simp only [Option.getD_some]
    rw [if_pos hr]
    rfl
  · intro r hr
    rw [retriesOf]
    simp only [Option.getD_some]
    rw [if_neg (by omega)]
  · intro resps cfg options hfail
    have hunf : aiChooseAnswer true resps cfg options =
        aiLoop resps options (1 + retriesOf cfg) 1 (1 + retriesOf cfg) := rfl
    rw [hunf, aiLoop_all_fail resps options (1 + retriesOf cfg) hfail (1 + retriesOf cfg) 1]
    have hmin : min (1 + retriesOf cfg) (1 + retriesOf cfg - 1) = retriesOf cfg := by
      omega
    rw [hmin]

/-- C5, witness: with `retries = 2` configured and every attempt raising,
exactly 3 attempts run, with two 0.5-second backoffs, and the judge returns
`-1`. -/
theorem C5_witness :
    aiChooseAnswer true (fun _ => AiResp.raised) (some 2) ["aa", "bb", "cc", "dd"] =
      ⟨-1, 3, [(1/2 : ℚ), 1/2]⟩ := by
  have h := C5_retry_policy.2 (fun _ => AiResp.raised) (some 2) ["aa", "bb", "cc", "dd"]
    (fun _ => rfl)
  rw [h]
  rfl

/-- C6, counterexample: the claim's rules read the response text as-is, but
the code strips and upper-cases it first.  For the response `"b"` the claim
finds no capital letter, no digit, and no option substring — unresolved —
while the code upper-cases to `"B"` and returns index 1.  Conversely, for
the response `"egg"` with first option `"egg"`, the claim's case-sensitive
option match yields index 0, while the code searches `"egg"` inside the
upper-cased `"EGG"` and finds nothing, leaving the attempt unresolved. -/
theorem C6_counterexample :
    parseAiText "b" ["xx", "yy", "zz", "ww"] = 1 ∧
    claimParseResponse "b" ["xx", "yy", "zz", "ww"] = -1 ∧
    parseAiText "egg" ["egg", "uu", "vv", "ww"] = -1 ∧
    claimParseResponse "egg" ["egg", "uu", "vv", "ww"] = 0 :=
  ⟨by decide, by decide, by decide, by decide⟩

/-- C6, amended: the judge parses each response by first stripping and
upper-casing it, then trying, in order: (1) the first occurrence of a
letter A–D in the transformed text (so lowercase letters in the original
count); (2) a standalone digit 1–4 mapped to 0–3; (3) the first option
whose trimmed text is non-empty and occurs in the transformed text (so
options containing lowercase letters can never match).  Equivalently, the
code's parse equals the claim's rule chain applied to the stripped,
upper-cased response, and with every attempt unparsable the judge returns
unresolved. -/
theorem C6_amended_parse_rules :
    (∀ (content : String) (options : List String),
      parseLetter (pyUpper (pyStrip content)) ≠ -1 →
      parseAiText content options = parseLetter (pyUpper (pyStrip content))) ∧
    (∀ (content : String) (options : List String),
      parseLetter (pyUpper (pyStrip content)) = -1 →
      parseDigit (pyUpper (pyStrip content)) ≠ -1 →
      parseAiText content options = parseDigit (pyUpper (pyStrip content))) ∧
    (∀ (content : String) (options : List String),
      parseLetter (pyUpper (pyStrip content)) = -1 →
      parseDigit (pyUpper (pyStrip content)) = -1 →
      parseAiText content options = parseOptionSub (pyUpper (pyStrip content)) options) ∧
    (∀ (content : String) (options : List String),
      parseAiText content options = claimParseResponse (pyUpper (pyStrip content)) options) ∧
    (∀ (resps : Nat → AiResp) (cfg : Option Int) (options : List String),
      (∀ i, attemptFails options (resps i) = true) →
      (aiChooseAnswer true resps cfg options).idx = -1) := by
  have hunf : ∀ (content : String) (options : List String),
      parseAiText content options =
        (if (if parseLetter (pyUpper (pyStrip content)) = -1
            then parseDigit (pyUpper (pyStrip content))
            else parseLetter (pyUpper (pyStrip content))) = -1
        then parseOptionSub (pyUpper (pyStrip content)) options
        else (if parseLetter (pyUpper (pyStrip content)) = -1
            then parseDigit (pyUpper (pyStrip content))
            else parseLetter (pyUpper (pyStrip content)))) := fun _ _ => rfl
  refine ⟨?_, ?_, ?_, fun _ _ => rfl, ?_⟩
  · intro content options h
    rw [hunf, if_neg h, if_neg h]
  · intro content options h1 h2
    rw [hunf, if_pos h1, if_neg h2]
  · intro content options h1 h2
    rw [hunf, if_pos h1, if_pos h2]
  · intro resps cfg options hfail
    have h : aiChooseAnswer true resps cfg options =
        aiLoop resps options (1 + retriesOf cfg) 1 (1 + retriesOf cfg) := rfl
    rw [h, aiLoop_all_fail resps options (1 + retriesOf cfg) hfail (1 + retriesOf cfg) 1]

/-- C6, witness: the response `"b"` upper-cases to `"B"`, rule 1 fires,
and the judge's parse yields index 1. -/
theorem C6_amended_witness : parseAiText "b" ["pp", "qq", "rr", "ss"] = 1 := by
  have h := C6_amended_parse_rules.1 "b" ["pp", "qq", "rr", "ss"] (by decide)
  rw [h]
  decide

theorem persistAnswer_unfold (bank : Bank) (question chosen : String) :
    persistAnswer bank question chosen =
      (if stripL chosen.data = [] then none
      else match bankGet bank question with
        | none => some (bankSet bank question (.str (String.mk (stripL chosen.data))))
        | some existing =>
          if ((meaningsOfVal existing).map normL).contains (normL (stripL chosen.data)) then
            none
          else
            some (bankSet bank question (.str (String.mk
              (joinSep sepPipe (meaningsOfVal existing ++ [stripL chosen.data])))))) := rfl

theorem persistAnswer_entry (bank : Bank) (question chosen : String) (v : BankVal)
    (hget : bankGet bank question = some v) (hnb : stripL chosen.data ≠ []) :
    persistAnswer bank question chosen =
      (if ((meaningsOfVal v).map normL).contains (normL (stripL chosen.data)) then none
      else some (bankSet bank question (.str (String.mk
        (joinSep sepPipe (meaningsOfVal v ++ [stripL chosen.data])))))) := by
  rw [persistAnswer_unfold, if_neg hnb, hget]

/-- C7: recording an answer is an idempotent union.  Recording a meaning
whose whitespace-stripped normalised form already occurs in the entry
writes nothing; recording a new meaning rewrites the entry as the old
meanings joined with `" | "` plus the stripped chosen text — exactly one
new pipe-separated segment (for pipe-free text, the re-parsed entry has
exactly one more meaning); recording against an absent entry creates one
whose sole meaning is the stripped chosen text. -/
theorem C7_persist_idempotent_union :
    (∀ (bank : Bank) (question chosen : String) (v : BankVal),
      bankGet bank question = some v →
      ((meaningsOfVal v).map normL).contains (normL chosen.data) = true →
      persistAnswer bank question chosen = none) ∧
    (∀ (bank : Bank) (question chosen : String) (v : BankVal),
      bankGet bank question = some v →
      ((meaningsOfVal v).map normL).contains (normL chosen.data) = false →
      stripL chosen.data ≠ [] →
      (∀ c ∈ chosen.data, isPipeChar c = false) →
      persistAnswer bank question chosen =
        some (bankSet bank question (.str (String.mk
          (joinSep sepPipe (meaningsOfVal v ++ [stripL chosen.data]))))) ∧
      (meaningsL (joinSep sepPipe (meaningsOfVal v ++ [stripL chosen.data]))).length =
        (meaningsOfVal v).length + 1) ∧
    (∀ (bank : Bank) (question chosen : String),
      bankGet bank question = none →
      stripL chosen.data ≠ [] →
      (∀ c ∈ chosen.data, isPipeChar c = false) →
      persistAnswer bank question chosen =
        some (bankSet bank question (.str (String.mk (stripL chosen.data)))) ∧
      meaningsL (stripL chosen.data) = [stripL chosen.data]) := by
  refine ⟨?_, ?_, ?_⟩
  · intro bank question chosen v hget hcont
    by_cases hnb : stripL chosen.data = []
    · rw [persistAnswer_unfold, if_pos hnb]
    · rw [persistAnswer_entry bank question chosen v hget hnb, normL_stripL, if_pos hcont]
  · intro bank question chosen v hget hcont hnb hpf
    constructor
    · rw [persistAnswer_entry bank question chosen v hget hnb, normL_stripL,
        if_neg (by rw [hcont]; exact Bool.false_ne_true)]
    · have hfree : ∀ p ∈ meaningsOfVal v ++ [stripL chosen.data],
          ∀ c ∈ p, isPipeChar c = false := by
        intro p hp
        rcases List.mem_append.1 hp with hp | hp
        · exact mem_meaningsOfVal_free v p hp
        · simp only [List.mem_singleton] at hp
          subst hp
          exact fun c hc => hpf c ((stripL_sublist chosen.data).subset hc)
      have hnbs : ∀ p ∈ meaningsOfVal v ++ [stripL chosen.data], stripL p ≠ [] := by
        intro p hp
        rcases List.mem_append.1 hp with hp | hp
        · exact mem_meaningsOfVal_nonblank v p hp
        · simp only [List.mem_singleton] at hp
          subst hp
          rw [stripL_stripL]
          exact hnb
      rw [meaningsL_joinSep_length _ (by simp) hfree hnbs]
      simp
  · intro bank question chosen hget hnb hpf
    constructor
    · rw [persistAnswer_unfold, if_neg hnb, hget]
    · have hfree' : ∀ c ∈ stripL chosen.data, isPipeChar c = false :=
        fun c hc => hpf c ((stripL_sublist chosen.data).subset hc)
      have hsp : splitOnPipe (stripL chosen.data) = [stripL chosen.data] :=
        splitOnPipe_free _ hfree'
      rw [meaningsL, pipeSplitL, hsp]
      simp [pipeSplitAll, stripL_stripL, hnb]

/-- C7, witness: appending the fresh meaning `"fox"` to the entry
`"cat | dog"` writes exactly `"cat | dog | fox"`, whose re-parse has one
more meaning than before. -/
theorem C7_witness :
    persistAnswer [("q", BankVal.str "cat | dog")] "q" "fox" =
      some [("q", BankVal.str "cat | dog | fox")] ∧
    (meaningsL ("cat | dog | fox".data)).length =
      (meaningsOfVal (BankVal.str "cat | dog")).length + 1 := by
  have h := C7_persist_idempotent_union.2.1 [("q", BankVal.str "cat | dog")] "q" "fox"
    (BankVal.str "cat | dog") rfl (by decide) (by decide) (by decide)
  constructor
  · rw [h.1]
    decide
  · have h2 := h.2
    have e : joinSep sepPipe (meaningsOfVal (BankVal.str "cat | dog") ++
        [stripL "fox".data]) = "cat | dog | fox".data := by decide
    rw [e] at h2
    exact h2

theorem getAnswerIndex_bankHit (bank : Bank) (aiEnabled : Bool) (resps : Nat → AiResp)
    (cfg : Option Int) (question : String) (options : List String) (i : Nat)
    (h : bankAnswer bank question options = some i) :
    getAnswerIndex bank aiEnabled resps cfg question options = ⟨(i : Int), bank, []⟩ := by
  rw [getAnswerIndex, h]

theorem getAnswerIndex_bankMiss (bank : Bank) (aiEnabled : Bool) (resps : Nat → AiResp)
    (cfg : Option Int) (question : String) (options : List String)
    (h : bankAnswer bank question options = none) :
    getAnswerIndex bank aiEnabled resps cfg question options =
      (if aiEnabled then
        (if (aiChooseAnswer true resps cfg options).idx ≠ -1 then
          (⟨(aiChooseAnswer true resps cfg options).idx,
            persistBank bank question
              (options.getD (aiChooseAnswer true resps cfg options).idx.toNat ""),
            []⟩ : ResolveResult)
        else ⟨-1, bank, [(question, options)]⟩)
      else ⟨-1, bank, [(question, options)]⟩) := by
  rw [getAnswerIndex, h]

/-- C8: the deliberate-miss injection is frame-disjoint from the knowledge
base — the bank after a question step equals the bank after resolution
alone, whatever the miss selection and its oracle; and resolution either
leaves the bank untouched or records exactly the resolved option's text
(the text at the returned non-negative index). -/
theorem C8_miss_never_touches_bank :
    (∀ (bank : Bank) (aiEnabled : Bool) (resps : Nat → AiResp) (cfg : Option Int)
      (isWrong : Bool) (missR : Nat) (q : RawQuestion),
      (apiQuestionStep bank aiEnabled resps cfg isWrong missR q).bank =
        (getAnswerIndex bank aiEnabled resps cfg (titleOf q) (optionsOf q)).bank) ∧
    (∀ (bank : Bank) (aiEnabled : Bool) (resps : Nat → AiResp) (cfg : Option Int)
      (question : String) (options : List String),
      (getAnswerIndex bank aiEnabled resps cfg question options).bank = bank ∨
        (0 ≤ (getAnswerIndex bank aiEnabled resps cfg question options).idx ∧
          (getAnswerIndex bank aiEnabled resps cfg question options).bank =
            persistBank bank question
              (options.getD
                (getAnswerIndex bank aiEnabled resps cfg question options).idx.toNat ""))) := by
  constructor
  · intro bank aiEnabled resps cfg isWrong missR q
    rfl
  · intro bank aiEnabled resps cfg question options
    cases hba : bankAnswer bank question options with
    | some i =>
      left
      rw [getAnswerIndex_bankHit bank aiEnabled resps cfg question options i hba]
    | none =>
      rw [getAnswerIndex_bankMiss bank aiEnabled resps cfg question options hba]
      cases aiEnabled with
      | false => left; rfl
      | true =>
        by_cases hidx : (aiChooseAnswer true resps cfg options).idx ≠ -1
        · rw [if_pos rfl, if_pos hidx]
          right
          rcases aiChooseAnswer_idx_valid true resps cfg options with h | ⟨h1, _⟩
          · exact absurd h hidx
          · exact ⟨h1, rfl⟩
        · rw [if_pos rfl, if_neg hidx]
          left
          rfl

/-- C9: an unresolved question is recovered locally — resolution with the
judge disabled or exhausted appends exactly one failure-log record carrying
the question title and its options and returns `-1` with the bank
untouched; the answering loop still emits one submission record per
question; and a non-missed unresolved question is submitted as the default
letter `'A'`. -/
theorem C9_unresolved_recovery :
    (∀ (aiEnabled : Bool) (respsAt : Nat → Nat → AiResp) (cfg : Option Int)
      (wrongSet : Nat → Bool) (missR : Nat → Nat) (bank : Bank)
      (qs : List RawQuestion) (startIdx : Nat),
      (answerLoop aiEnabled respsAt cfg wrongSet missR bank qs startIdx).1.length =
        qs.length) ∧
    (∀ (bank : Bank) (resps : Nat → AiResp) (cfg : Option Int)
      (question : String) (options : List String),
      bankAnswer bank question options = none →
      getAnswerIndex bank false resps cfg question options =
        ⟨-1, bank, [(question, options)]⟩) ∧
    (∀ (bank : Bank) (resps : Nat → AiResp) (cfg : Option Int)
      (question : String) (options : List String),
      bankAnswer bank question options = none →
      (aiChooseAnswer true resps cfg options).idx = -1 →
      getAnswerIndex bank true resps cfg question options =
        ⟨-1, bank, [(question, options)]⟩) ∧
    (∀ (bank : Bank) (resps : Nat → AiResp) (cfg : Option Int) (missR : Nat)
      (q : RawQuestion),
      bankAnswer bank (titleOf q) (optionsOf q) = none →
      (apiQuestionStep bank false resps cfg false missR q).answer.2 = 'A') := by
  refine ⟨?_, ?_, ?_, ?_⟩
  · intro aiEnabled respsAt cfg wrongSet missR bank qs startIdx
    induction qs generalizing bank startIdx with
    | nil => rfl
    | cons q rest ih =>
      have hunf :
          (answerLoop aiEnabled respsAt cfg wrongSet missR bank (q :: rest) startIdx).1 =
            (apiQuestionStep bank aiEnabled (respsAt startIdx) cfg (wrongSet startIdx)
                (missR startIdx) q).answer ::
              (answerLoop aiEnabled respsAt cfg wrongSet missR
                (apiQuestionStep bank aiEnabled (respsAt startIdx) cfg (wrongSet startIdx)
                  (missR startIdx) q).bank
                rest (startIdx + 1)).1 := rfl
      rw [hunf, List.length_cons, List.length_cons, ih _ (startIdx + 1)]
  · intro bank resps cfg question options hba
    rw [getAnswerIndex_bankMiss bank false resps cfg question options hba,
      if_neg (by decide)]
  · intro bank resps cfg question options hba hidx
    rw [getAnswerIndex_bankMiss bank true resps cfg question options hba,
      if_pos rfl, if_neg (by simp [hidx])]
  · intro bank resps cfg missR q hba
    have hres : getAnswerIndex bank false resps cfg (titleOf q) (optionsOf q) =
        ⟨-1, bank, [(titleOf q, optionsOf q)]⟩ := by
      rw [getAnswerIndex_bankMiss bank false resps cfg (titleOf q) (optionsOf q) hba,
        if_neg (by decide)]
    have hunf : (apiQuestionStep bank false resps cfg false missR q).answer.2 =
        finalAnswerChar false missR
          (correctChar (getAnswerIndex bank false resps cfg (titleOf q) (optionsOf q)).idx) :=
      rfl
    rw [hunf, hres]
    rfl

/-- C9, witness: an empty bank, judge disabled — resolution of `"q"` over
four options yields `-1`, the bank unchanged, and exactly one failure-log
record with the title and options. -/
theorem C9_witness :
    getAnswerIndex [] false (fun _ => AiResp.raised) none "q" ["aa", "bb", "cc", "dd"] =
      ⟨-1, [], [("q", ["aa", "bb", "cc", "dd"])]⟩ :=
  C9_unresolved_recovery.2.1 [] (fun _ => AiResp.raised) none "q"
    ["aa", "bb", "cc", "dd"] rfl

/-- C10: for four options, both the AI judge and `get_answer_index` return
either `-1` or an index in {0,1,2,3}, so indexing the options with a
non-negative result is always in range. -/
theorem C10_index_in_range (bank : Bank) (aiEnabled : Bool) (resps : Nat → AiResp)
    (cfg : Option Int) (question : String) (options : List String)
    (hlen : options.length = 4) :
    ((aiChooseAnswer aiEnabled resps cfg options).idx = -1 ∨
      (0 ≤ (aiChooseAnswer aiEnabled resps cfg options).idx ∧
        (aiChooseAnswer aiEnabled resps cfg options).idx ≤ 3)) ∧
    ((getAnswerIndex bank aiEnabled resps cfg question options).idx = -1 ∨
      (0 ≤ (getAnswerIndex bank aiEnabled resps cfg question options).idx ∧
        (getAnswerIndex bank aiEnabled resps cfg question options).idx ≤ 3)) := by
  refine ⟨aiChooseAnswer_idx_valid aiEnabled resps cfg options, ?_⟩
  cases hba : bankAnswer bank question options with
  | some i =>
    rw [getAnswerIndex_bankHit bank aiEnabled resps cfg question options i hba]
    right
    have hlt : i < options.length := bankAnswer_lt_length bank question options i hba
    rw [hlen] at hlt
    constructor
    · show (0 : Int) ≤ (i : Int)
      omega
    · show (i : Int) ≤ 3
      omega
  | none =>
    rw [getAnswerIndex_bankMiss bank aiEnabled resps cfg question options hba]
    cases aiEnabled with
    | false => left; rfl
    | true =>
      by_cases hidx : (aiChooseAnswer true resps cfg options).idx ≠ -1
      · rw [if_pos rfl, if_pos hidx]
        rcases aiChooseAnswer_idx_valid true resps cfg options with h | ⟨h1, h2⟩
        · exact absurd h hidx
        · exact Or.inr ⟨h1, h2⟩
      · rw [if_pos rfl, if_neg hidx]
        left
        rfl

/-- C10, witness: at an empty bank, judge disabled, and four concrete
options, both results are `-1` or lie in {0,1,2,3}. -/
theorem C10_witness :
    ((aiChooseAnswer false (fun _ => AiResp.raised) none ["aa", "bb", "cc", "dd"]).idx = -1 ∨
      (0 ≤ (aiChooseAnswer false (fun _ => AiResp.raised) none ["aa", "bb", "cc", "dd"]).idx ∧
        (aiChooseAnswer false (fun _ => AiResp.raised) none ["aa", "bb", "cc", "dd"]).idx ≤ 3)) ∧
    ((getAnswerIndex [] false (fun _ => AiResp.raised) none "q"
        ["aa", "bb", "cc", "dd"]).idx = -1 ∨
      (0 ≤ (getAnswerIndex [] false (fun _ => AiResp.raised) none "q"
          ["aa", "bb", "cc", "dd"]).idx ∧
        (getAnswerIndex [] false (fun _ => AiResp.raised) none "q"
          ["aa", "bb", "cc", "dd"]).idx ≤ 3)) :=
  C10_index_in_range [] false (fun _ => AiResp.raised) none "q"
    ["aa", "bb", "cc", "dd"] rfl

end HduWords
